import Mathlib

/-!
Verification of the expanded-display renderer (`src/display/expanded_display.rs`
of the `tabled` crate): a shallow embedding of the renderer and proofs of its
specified properties.

Strings are modelled by Lean `String` (a wrapper around `List Char`); Rust's
`str::len()` (UTF-8 byte count) is `String.utf8ByteSize`, `str::chars().count()`
is `String.length`.
-/

namespace ExpDisplay

/-- Lower-case hexadecimal digit, as produced by Rust's `\u{...}` escapes. -/
def hexDigit : Nat → Char
  | 0 => '0' | 1 => '1' | 2 => '2' | 3 => '3'
  | 4 => '4' | 5 => '5' | 6 => '6' | 7 => '7'
  | 8 => '8' | 9 => '9' | 10 => 'a' | 11 => 'b'
  | 12 => 'c' | 13 => 'd' | 14 => 'e' | _ => 'f'

/-- Lower-case hexadecimal digit string of a natural number (most significant
digit first), as in Rust's `\u{...}` escape payload. -/
def hexChars (n : Nat) : List Char :=
  if _h : n < 16 then [hexDigit n]
  else hexChars (n / 16) ++ [hexDigit (n % 16)]
  decreasing_by exact Nat.div_lt_self (by omega) (by omega)

/-- Rust `char::escape_debug` of a single character, as a character list.
`escSingle` distinguishes `str::escape_debug` (which escapes `'`) from the
`Debug` impl for `str` (which does not).  Characters `≥ 0x80` that are not
controls are treated as printable; the Unicode grapheme-extend/unassigned
classes that Rust additionally escapes are not modelled (no claim here
involves such characters). -/
def rustCharEscapeDebug (escSingle : Bool) (c : Char) : List Char :=
  if c = '\x00' then ['\\', '0']
  else if c = '\t' then ['\\', 't']
  else if c = '\r' then ['\\', 'r']
  else if c = '\n' then ['\\', 'n']
  else if c = '\\' then ['\\', '\\']
  else if c = '"' then ['\\', '"']
  else if c = '\'' then (if escSingle then ['\\', '\''] else ['\''])
  else if c.val < 0x20 ∨ c.val = 0x7f then
    ['\\', 'u', '{'] ++ hexChars c.toNat ++ ['}']
  else [c]

/-- Rust `str::escape_debug().to_string()`: every character escaped
debug-style (single quotes included). -/
def escape_debug (s : String) : String :=
  String.mk ((s.data.map (rustCharEscapeDebug true)).flatten)

/-- Rust `format!("{:?}", s)` for a string `s`: a double quote, each character
escaped debug-style (single quotes not escaped), and a closing double quote. -/
def rustDebugFmt (s : String) : String :=
  String.mk ('"' :: (s.data.map (rustCharEscapeDebug false)).flatten ++ ['"'])

/-- The header-label normalization of `Display for ExpandedDisplay`:
`let escaped = format!("{:?}", f); escaped.chars().skip(1).take(escaped.len() - 1 - 1).collect()`.
Note that `escaped.len()` is the *byte* length while `skip`/`take` walk
*characters*. -/
def normalizeField (f : String) : String :=
  let escaped := rustDebugFmt f
  String.mk ((escaped.data.drop 1).take (escaped.utf8ByteSize - 1 - 1))

/-- Modelled from the spec: "escape it using a debug-style escape ... then
strip the leading and trailing quote characters that the escape format adds".
This drops exactly the first and last character of the escaped form. -/
def normalizeField_spec (f : String) : String :=
  let escaped := rustDebugFmt f
  String.mk ((escaped.data.drop 1).dropLast)

/-- `max_field_width`: `fields.iter().map(|f| f.chars().count()).max().unwrap_or_default()`. -/
def maxFieldWidth (fields : List String) : Nat :=
  (fields.map String.length).foldl max 0

/-- Rust's `{:width$}` padding of a string: left aligned, filled with spaces
up to `width` *characters* (no truncation when already wider). -/
def padDisplay (s : String) (width : Nat) : String :=
  s ++ String.mk (List.replicate (width - s.length) ' ')

/-- Helper for `linesRust`: accumulates the current line in reverse in `cur`.
At a `'\n'`, the finished line is emitted with a trailing `'\r'` (the head of
the reversed accumulator) stripped; a final unterminated line is emitted
as-is, and a final empty accumulator emits nothing (so a trailing line
terminator adds no line). -/
def linesAux : List Char → List Char → List (List Char)
  | cur, [] => if cur.isEmpty then [] else [cur.reverse]
  | cur, c :: rest =>
      if c = '\n' then
        (match cur with
         | '\r' :: cur' => cur'.reverse
         | _ => cur.reverse) :: linesAux [] rest
      else
        linesAux (c :: cur) rest

/-- Rust `str::lines()`: split at `'\n'` (a preceding `'\r'` belongs to the
terminator), the final line ending being optional. -/
def linesRust (s : String) : List String :=
  (linesAux [] s.data).map String.mk

/-- `write_record_line`: the sequence of output lines (without their trailing
`'\n'`, which the caller appends) written for one field.  An empty value
yields one line `"{:width$} | {}"`; otherwise one line per element of
`value.lines()`, the label being replaced by `""` on every line but the
first. -/
def write_record_line (field value : String) (max_field_width : Nat) :
    List String :=
  if value = "" then
    [padDisplay field max_field_width ++ " | " ++ value]
  else
    (linesRust value).enum.map (fun il =>
      padDisplay (if il.1 = 0 then field else "") max_field_width
        ++ " | " ++ il.2)

/-- The renderer state: two function-valued settings, the header labels, and
the record matrix, exactly the fields of the Rust struct. -/
structure ExpandedDisplay where
  format_record_splitter : Nat → String
  format_value : String → String
  fields : List String
  records : List (List String)

/-- `ExpandedDisplay::new`: `header` is `T::headers()` and `data` the list of
`i.fields()` of the input items, an iteration the caller has already
performed (the `Tabled` extraction capability is external to this core).
No validation is performed. -/
def ExpandedDisplay.new (header : List String) (data : List (List String)) :
    ExpandedDisplay where
  format_record_splitter := fun i => "-[ RECORD " ++ Nat.repr i ++ " ]-"
  format_value := fun s => s
  fields := header
  records := data

/-- `ExpandedDisplay::format_record_head`. -/
def ExpandedDisplay.format_record_head (d : ExpandedDisplay)
    (f : Nat → String) : ExpandedDisplay :=
  { d with format_record_splitter := f }

/-- `ExpandedDisplay::format_value` (the setter; named `set_format_value`
here because the structure projection already carries the field's name). -/
def ExpandedDisplay.set_format_value (d : ExpandedDisplay)
    (f : String → String) : ExpandedDisplay :=
  { d with format_value := f }

/-- `ExpandedDisplay::format_value_in_one_line`: installs
`|s| s.escape_debug().to_string()` as the value formatter. -/
def ExpandedDisplay.format_value_in_one_line (d : ExpandedDisplay) :
    ExpandedDisplay :=
  { d with format_value := fun s => escape_debug s }

/-- `writeln!` applied to each line in order: append each line plus `'\n'`
to the output buffer. -/
def writeLines (buf : String) (ls : List String) : String :=
  ls.foldl (fun b l => b ++ l ++ "\n") buf

/-- The record loop of `Display::fmt`, with the receiver (`st`, immutable as
a `&self` borrow) and the formatter's output buffer threaded explicitly.
`assert_eq!(record.len(), fields.len())` halts rendering, modelled as
`none`. -/
def fmtLoop (st : ExpandedDisplay) (fields : List String) (w : Nat) :
    Nat → List (List String) → String → Option (String × ExpandedDisplay)
  | _, [], buf => some (buf, st)
  | i, r :: rs, buf =>
      if r.length = fields.length then
        let buf := buf ++ st.format_record_splitter i ++ "\n"
        let buf := (r.zip fields).foldl
          (fun b vf =>
            writeLines b (write_record_line vf.2 (st.format_value vf.1) w))
          buf
        fmtLoop st fields w (i + 1) rs buf
      else
        none

/-- `Display::fmt` for `ExpandedDisplay`: normalize the header labels,
compute the alignment width, then run the record loop appending to `buf`.
Returns the final buffer and the (unchanged) receiver, or `none` when the
internal assertion halts rendering. -/
def fmt (d : ExpandedDisplay) (buf : String) :
    Option (String × ExpandedDisplay) :=
  let fields := d.fields.map normalizeField
  let max_field_width := maxFieldWidth fields
  fmtLoop d fields max_field_width 0 d.records buf

/-- `format!("{}", d)`: rendering from an empty buffer, keeping only the
produced text. -/
def render (d : ExpandedDisplay) : Option String :=
  (fmt d "").map Prod.fst

/-- The text written for one record's field lines, starting from an empty
buffer (used to state the block decomposition of the output). -/
def recordFields (d : ExpandedDisplay) (w : Nat) (r : List String) : String :=
  (r.zip (d.fields.map normalizeField)).foldl
    (fun b vf =>
      writeLines b (write_record_line vf.2 (d.format_value vf.1) w)) ""

/-- One record's whole output block: the record-header line produced by the
splitter at the record's zero-based index, a line break, then the field
lines. -/
def recordBlock (d : ExpandedDisplay) (w : Nat) (i : Nat) (r : List String) :
    String :=
  d.format_record_splitter i ++ "\n" ++ recordFields d w r


/-! ### Helper lemmas -/

theorem strFoldl_append (l : List String) (b : String) :
    l.foldl (fun r s => r ++ s) b = b ++ l.foldl (fun r s => r ++ s) "" := by
  induction l generalizing b with
  | nil => simp
  | cons a l ih =>
      simp only [List.foldl_cons]
      rw [ih (b ++ a), ih ("" ++ a), String.empty_append, String.append_assoc]

theorem sJoin_cons (a : String) (l : List String) :
    String.join (a :: l) = a ++ String.join l := by
  simp only [String.join, List.foldl_cons]
  rw [strFoldl_append, String.empty_append]

theorem length_padDisplay (s : String) (w : Nat) (h : s.length ≤ w) :
    (padDisplay s w).length = w := by
  simp only [padDisplay, String.length_append]
  have hm : (String.mk (List.replicate (w - s.length) ' ')).length
      = w - s.length := by
    show (List.replicate (w - s.length) ' ').length = w - s.length
    simp
  omega

theorem init_le_foldl_max (l : List Nat) (b : Nat) : b ≤ l.foldl max b := by
  induction l generalizing b with
  | nil => exact le_refl b
  | cons x l ih => exact le_trans (le_max_left b x) (ih (max b x))

theorem le_foldl_max (l : List Nat) (a b : Nat) (h : a ∈ l) :
    a ≤ l.foldl max b := by
  induction l generalizing b with
  | nil => cases h
  | cons x l ih =>
      rcases List.mem_cons.mp h with rfl | h
      · exact le_trans (le_max_right b a) (init_le_foldl_max l (max b a))
      · exact ih _ h

theorem mem_le_maxFieldWidth (fields : List String) (f : String)
    (h : f ∈ fields) : f.length ≤ maxFieldWidth fields :=
  le_foldl_max _ _ _ (List.mem_map_of_mem String.length h)

theorem linesAux_no_newline (l cur : List Char) (hnl : '\n' ∉ l)
    (hne : cur ≠ [] ∨ l ≠ []) : linesAux cur l = [cur.reverse ++ l] := by
  induction l generalizing cur with
  | nil =>
      have hc : cur ≠ [] := by tauto
      simp [linesAux, List.isEmpty_iff, hc]
  | cons c rest ih =>
      have hc : c ≠ '\n' := fun h => hnl (h ▸ List.mem_cons_self c rest)
      have hrest : '\n' ∉ rest := fun h => hnl (List.mem_cons_of_mem c h)
      simp only [linesAux, if_neg hc]
      rw [ih (c :: cur) hrest (Or.inl (by simp))]
      simp

theorem linesAux_length (l cur : List Char) (hlast : l.getLast? ≠ some '\n')
    (hne : l ≠ [] ∨ cur ≠ []) :
    (linesAux cur l).length = l.count '\n' + 1 := by
  induction l generalizing cur with
  | nil =>
      have hc : cur ≠ [] := by tauto
      simp [linesAux, List.isEmpty_iff, hc]
  | cons c rest ih =>
      by_cases hc : c = '\n'
      · subst hc
        have hrest : rest ≠ [] := by
          rintro rfl
          simp at hlast
        have hlast' : rest.getLast? ≠ some '\n' := by
          intro h
          apply hlast
          rw [List.getLast?_cons, h]
          rfl
        simp only [linesAux, if_pos trivial, List.length_cons]
        rw [ih [] hlast' (Or.inl hrest)]
        simp [List.count_cons]
      · simp only [linesAux, if_neg hc]
        rcases rest with _ | ⟨r, rs⟩
        · simp [linesAux, List.isEmpty_iff, List.count_cons, hc]
        · have hlast' : (r :: rs).getLast? ≠ some '\n' := by
            intro h
            apply hlast
            rw [List.getLast?_cons, h]
            rfl
          rw [ih (c :: cur) hlast' (Or.inl (by simp))]
          simp [List.count_cons, hc]

theorem linesRust_no_newline (s : String) (hne : s ≠ "") (hnl : '\n' ∉ s.data) :
    linesRust s = [s] := by
  have hd : s.data ≠ [] := fun h => hne (String.ext h)
  unfold linesRust
  rw [linesAux_no_newline s.data [] hnl (Or.inr hd)]
  simp only [List.reverse_nil, List.nil_append, List.map_cons, List.map_nil]

theorem linesRust_length (s : String) (hne : s.data ≠ [])
    (hlast : s.data.getLast? ≠ some '\n') :
    (linesRust s).length = s.data.count '\n' + 1 := by
  unfold linesRust
  rw [List.length_map]
  exact linesAux_length s.data [] hlast (Or.inl hne)

theorem hexDigit_ne_newline (n : Nat) : hexDigit n ≠ '\n' := by
  unfold hexDigit
  split <;> decide

theorem hexChars_no_newline (n : Nat) : '\n' ∉ hexChars n := by
  induction n using Nat.strong_induction_on with
  | _ n ih =>
      rw [hexChars]
      split
      · intro h
        exact hexDigit_ne_newline n (List.mem_singleton.mp h).symm
      · next h16 =>
        intro h
        rcases List.mem_append.mp h with h | h
        · exact ih (n / 16) (Nat.div_lt_self (by omega) (by omega)) h
        · exact hexDigit_ne_newline _ (List.mem_singleton.mp h).symm

theorem rustCharEscapeDebug_no_newline (b : Bool) (c : Char) :
    '\n' ∉ rustCharEscapeDebug b c := by
  unfold rustCharEscapeDebug
  split_ifs with h1 h2 h3 h4 h5 h6 h7 h8 h9
  · decide
  · decide
  · decide
  · decide
  · decide
  · decide
  · decide
  · decide
  · intro hmem
    rcases List.mem_append.mp hmem with hmem | hmem
    · rcases List.mem_append.mp hmem with hmem | hmem
      · revert hmem
        decide
      · exact hexChars_no_newline _ hmem
    · revert hmem
      decide
  · intro hmem
    exact h4 (List.mem_singleton.mp hmem).symm

theorem escape_debug_no_newline (s : String) :
    '\n' ∉ (escape_debug s).data := by
  intro h
  have h' : '\n' ∈ (s.data.map (rustCharEscapeDebug true)).flatten := h
  rcases List.mem_flatten.mp h' with ⟨piece, hp, hmem⟩
  rcases List.mem_map.mp hp with ⟨c, _, rfl⟩
  exact rustCharEscapeDebug_no_newline true c hmem

theorem escape_debug_has_escaped_newline (s : String) (h : '\n' ∈ s.data) :
    ∃ a b, (escape_debug s).data = a ++ '\\' :: 'n' :: b := by
  rcases List.append_of_mem h with ⟨u, t, hs⟩
  have hf : rustCharEscapeDebug true '\n' = ['\\', 'n'] := by decide
  refine ⟨(u.map (rustCharEscapeDebug true)).flatten,
    (t.map (rustCharEscapeDebug true)).flatten, ?_⟩
  show (s.data.map (rustCharEscapeDebug true)).flatten = _
  rw [hs, List.map_append, List.flatten_append, List.map_cons,
    List.flatten_cons, hf]
  simp

theorem enumFrom_pos_labels (fld : String) (w : Nat) (rest : List String) :
    ∀ n, 0 < n →
      (List.enumFrom n rest).map (fun il =>
        padDisplay (if il.1 = 0 then fld else "") w ++ " | " ++ il.2)
      = rest.map (fun c => padDisplay "" w ++ " | " ++ c) := by
  induction rest with
  | nil => intro n _; rfl
  | cons x xs ih =>
      intro n hn
      rw [List.enumFrom_cons]
      simp only [List.map_cons]
      rw [ih (n + 1) (by omega)]
      have hz : ¬ n = 0 := by omega
      simp [hz]

theorem write_record_line_cons (fld v : String) (w : Nat) (l0 : String)
    (rest : List String) (h : linesRust v = l0 :: rest) (hne : v ≠ "") :
    write_record_line fld v w
      = (padDisplay fld w ++ " | " ++ l0)
          :: rest.map (fun c => padDisplay "" w ++ " | " ++ c) := by
  unfold write_record_line
  rw [if_neg hne, h, List.enum_cons]
  simp only [List.map_cons]
  rw [enumFrom_pos_labels fld w rest 1 (by omega)]
  simp

theorem writeLines_factor (ls : List String) (buf : String) :
    writeLines buf ls = buf ++ writeLines "" ls := by
  induction ls generalizing buf with
  | nil => simp [writeLines, String.append_empty]
  | cons l ls ih =>
      show writeLines (buf ++ l ++ "\n") ls = buf ++ writeLines ("" ++ l ++ "\n") ls
      rw [ih (buf ++ l ++ "\n"), ih ("" ++ l ++ "\n"), String.empty_append]
      simp [String.append_assoc]

theorem foldWrite_factor {α : Type} (g : α → List String) (l : List α)
    (buf : String) :
    l.foldl (fun b x => writeLines b (g x)) buf
      = buf ++ l.foldl (fun b x => writeLines b (g x)) "" := by
  induction l generalizing buf with
  | nil => simp [String.append_empty]
  | cons x xs ih =>
      simp only [List.foldl_cons]
      rw [ih (writeLines buf (g x)), ih (writeLines "" (g x)),
        writeLines_factor (g x) buf]
      simp [String.append_assoc]

theorem fmtLoop_frame (st : ExpandedDisplay) (fields : List String) (w : Nat) :
    ∀ (rs : List (List String)) (i : Nat) (buf : String)
      (p : String × ExpandedDisplay),
      fmtLoop st fields w i rs buf = some p → p.2 = st := by
  intro rs
  induction rs with
  | nil =>
      intro i buf p h
      simp only [fmtLoop, Option.some.injEq] at h
      rw [← h]
  | cons r rs ih =>
      intro i buf p h
      simp only [fmtLoop] at h
      split at h
      · exact ih (i + 1) _ p h
      · exact Option.noConfusion h

theorem fmtLoop_mismatch (st : ExpandedDisplay) (fields : List String)
    (w : Nat) :
    ∀ (rs : List (List String)) (i : Nat) (buf : String),
      (∃ r ∈ rs, r.length ≠ fields.length) →
      fmtLoop st fields w i rs buf = none := by
  intro rs
  induction rs with
  | nil =>
      intro i buf h
      rcases h with ⟨r, hr, _⟩
      cases hr
  | cons r rs ih =>
      intro i buf h
      simp only [fmtLoop]
      split
      · next hlen =>
        rcases h with ⟨r', hr', hne⟩
        rcases List.mem_cons.mp hr' with rfl | hr'
        · exact absurd hlen hne
        · exact ih (i + 1) _ ⟨r', hr', hne⟩
      · rfl

theorem fmtLoop_append (st : ExpandedDisplay) (fields : List String)
    (w : Nat) :
    ∀ (rs : List (List String)) (i : Nat) (a b : String),
      fmtLoop st fields w i rs (a ++ b)
        = (fmtLoop st fields w i rs b).map (fun p => (a ++ p.1, p.2)) := by
  intro rs
  induction rs with
  | nil =>
      intro i a b
      simp [fmtLoop]
  | cons r rs ih =>
      intro i a b
      simp only [fmtLoop]
      split
      · have hfold :
            (r.zip fields).foldl
              (fun bf vf =>
                writeLines bf (write_record_line vf.2 (st.format_value vf.1) w))
              (a ++ b ++ st.format_record_splitter i ++ "\n")
            = a ++ (r.zip fields).foldl
              (fun bf vf =>
                writeLines bf (write_record_line vf.2 (st.format_value vf.1) w))
              (b ++ st.format_record_splitter i ++ "\n") := by
          rw [foldWrite_factor
              (fun vf => write_record_line vf.2 (st.format_value vf.1) w)
              (r.zip fields) (a ++ b ++ st.format_record_splitter i ++ "\n"),
            foldWrite_factor
              (fun vf => write_record_line vf.2 (st.format_value vf.1) w)
              (r.zip fields) (b ++ st.format_record_splitter i ++ "\n")]
          simp [String.append_assoc]
        rw [hfold]
        exact ih (i + 1) a _
      · simp

theorem fmtLoop_buffer (st : ExpandedDisplay) (fields : List String)
    (w : Nat) (rs : List (List String)) (i : Nat) (buf : String) :
    fmtLoop st fields w i rs buf
      = (fmtLoop st fields w i rs "").map (fun p => (buf ++ p.1, p.2)) := by
  have h := fmtLoop_append st fields w rs i buf ""
  rwa [String.append_empty] at h

theorem fmtLoop_blocks (d : ExpandedDisplay) (w : Nat) :
    ∀ (rs : List (List String)) (i : Nat) (buf : String),
      (∀ r ∈ rs, r.length = (d.fields.map normalizeField).length) →
      fmtLoop d (d.fields.map normalizeField) w i rs buf
        = some (buf ++ String.join ((List.enumFrom i rs).map
            (fun p => recordBlock d w p.1 p.2)), d) := by
  intro rs
  induction rs with
  | nil =>
      intro i buf _
      simp [fmtLoop, String.join, String.append_empty, List.enumFrom]
  | cons r rs ih =>
      intro i buf h
      simp only [fmtLoop]
      rw [if_pos (h r (List.mem_cons_self r rs))]
      rw [foldWrite_factor
          (fun vf => write_record_line vf.2 (d.format_value vf.1) w)
          (r.zip (d.fields.map normalizeField))
          (buf ++ d.format_record_splitter i ++ "\n")]
      rw [ih (i + 1) _ (fun r' hr' => h r' (List.mem_cons_of_mem _ hr'))]
      rw [List.enumFrom_cons]
      simp only [List.map_cons, sJoin_cons]
      simp [recordBlock, recordFields, String.append_assoc]

/-! ### Claims -/

/-- C1 (code bug): the render-time label normalization is supposed to escape
the label debug-style and strip the leading and trailing quotes, but
`take(escaped.len() - 2)` counts *bytes* while the iterator yields *chars*,
so for a non-ASCII label such as `é` the trailing quote survives; the
spec-faithful normalization (`normalizeField_spec`) strips it.  On ASCII
labels the two agree, and escaping still removes line breaks. -/
theorem normalizeField_trailing_quote_bug :
    normalizeField "é" = "é\"" ∧
    normalizeField_spec "é" = "é" ∧
    normalizeField "é" ≠ normalizeField_spec "é" ∧
    normalizeField "name" = normalizeField_spec "name" ∧
    '\n' ∉ (normalizeField "a\nb").data := by decide

/-- C2 counterexample: from a mismatched input (one header, a two-element
record) construction succeeds and yields a renderer value with the data
stored unchanged — the consistency check does not run at construction
time — and the failure only occurs when rendering. -/
theorem construction_no_check_counterexample :
    (ExpandedDisplay.new ["a"] [["x", "y"]]).fields = ["a"] ∧
    (ExpandedDisplay.new ["a"] [["x", "y"]]).records = [["x", "y"]] ∧
    fmt (ExpandedDisplay.new ["a"] [["x", "y"]]) "" = none := by
  exact ⟨rfl, rfl, rfl⟩

/-- C2 (amended): construction performs no validation; the internal
consistency check fires at *render* time: whenever some record's value-row
length differs from the header count, rendering halts and produces no
output. -/
theorem mismatch_halts_at_render (hs : List String)
    (data : List (List String)) (buf : String)
    (h : ∃ r ∈ data, r.length ≠ hs.length) :
    fmt (ExpandedDisplay.new hs data) buf = none := by
  have h' : ∃ r ∈ data,
      r.length ≠ ((ExpandedDisplay.new hs data).fields.map normalizeField).length := by
    rcases h with ⟨r, hr, hne⟩
    refine ⟨r, hr, ?_⟩
    rw [List.length_map]
    exact hne
  exact fmtLoop_mismatch _ _ _ data 0 buf h'

/-- C2 witness: the amended statement at a concrete mismatched input. -/
theorem mismatch_halts_at_render_witness :
    fmt (ExpandedDisplay.new ["a"] [["x", "y"]]) "x" = none :=
  mismatch_halts_at_render ["a"] [["x", "y"]] "x"
    ⟨["x", "y"], by decide, by decide⟩

/-- C3 counterexample: the value `"a\n"` contains one line-break character,
yet exactly one output line is emitted (not `1 + 1`): Rust's `lines()`
treats the final line terminator as optional. -/
theorem trailing_newline_counterexample :
    ¬ ((write_record_line "f" "a\n" 1).length
        = ("a\n" : String).data.count '\n' + 1) := by decide

/-- C3 (amended): for every field whose formatted value does not end with a
line-break character, a value containing `k` newline characters emits
exactly `k + 1` output lines, and only the first carries the header label:
every subsequent line carries an empty label padded to the alignment
width.  (This includes the empty value, which emits `0 + 1` lines.) -/
theorem value_lines_emitted (fld v : String) (w : Nat)
    (hlast : v.data.getLast? ≠ some '\n') :
    ∃ (l0 : String) (rest : List String), write_record_line fld v w
        = (padDisplay fld w ++ " | " ++ l0)
            :: rest.map (fun c => padDisplay "" w ++ " | " ++ c) ∧
      (write_record_line fld v w).length = v.data.count '\n' + 1 := by
  by_cases hv : v = ""
  · subst hv
    exact ⟨"", [], rfl, rfl⟩
  · have hne : v.data ≠ [] := fun h => hv (String.ext h)
    have hlen := linesRust_length v hne hlast
    obtain ⟨l0, rest, hLR⟩ : ∃ l0 rest, linesRust v = l0 :: rest := by
      cases hL : linesRust v with
      | nil => rw [hL] at hlen; simp at hlen
      | cons a as => exact ⟨a, as, rfl⟩
    refine ⟨l0, rest, write_record_line_cons fld v w l0 rest hLR hv, ?_⟩
    unfold write_record_line
    rw [if_neg hv, List.length_map, List.enum_length]
    exact hlen

/-- C3 witness: the spec's own example, `"line1\nline2"` under width 4. -/
theorem value_lines_emitted_witness :
    ∃ (l0 : String) (rest : List String),
      write_record_line "name" "line1\nline2" 4
        = (padDisplay "name" 4 ++ " | " ++ l0)
            :: rest.map (fun c => padDisplay "" 4 ++ " | " ++ c) ∧
      (write_record_line "name" "line1\nline2" 4).length
        = ("line1\nline2" : String).data.count '\n' + 1 :=
  value_lines_emitted "name" "line1\nline2" 4 (by decide)

/-- C4: the alignment width is the maximum *character* count over the
normalized header labels (`String.length` counts characters, not bytes),
and every line emitted for a field whose label belongs to the normalized
header set has a label portion — the text before the `" | "` separator —
of character length exactly the alignment width, whether it carries the
real label or the empty continuation label. -/
theorem label_padding_width (hs : List String) (w : Nat)
    (hw : w = maxFieldWidth (hs.map normalizeField))
    (fld : String) (hf : fld ∈ hs.map normalizeField) (v : String) :
    (padDisplay fld w).length = w ∧ (padDisplay "" w).length = w ∧
    ∀ line ∈ write_record_line fld v w,
      ∃ lbl rest, (lbl = fld ∨ lbl = "") ∧
        line = padDisplay lbl w ++ " | " ++ rest ∧
        (padDisplay lbl w).length = w := by
  have hle : fld.length ≤ w := hw ▸ mem_le_maxFieldWidth _ _ hf
  have h1 := length_padDisplay fld w hle
  have h2 := length_padDisplay "" w (Nat.zero_le w)
  refine ⟨h1, h2, ?_⟩
  intro line hline
  unfold write_record_line at hline
  by_cases hv : v = ""
  · rw [if_pos hv] at hline
    rcases List.mem_singleton.mp hline with rfl
    exact ⟨fld, v, Or.inl rfl, rfl, h1⟩
  · rw [if_neg hv] at hline
    rcases List.mem_map.mp hline with ⟨il, _, rfl⟩
    refine ⟨if il.1 = 0 then fld else "", il.2, ?_, rfl, ?_⟩
    · by_cases hi : il.1 = 0
      · rw [if_pos hi]; exact Or.inl rfl
      · rw [if_neg hi]; exact Or.inr rfl
    · by_cases hi : il.1 = 0
      · rw [if_pos hi]; exact h1
      · rw [if_neg hi]; exact h2

/-- C4 witness: the spec's example headers, alignment width 8. -/
theorem label_padding_width_witness :
    (padDisplay "name" 8).length = 8 ∧ (padDisplay "" 8).length = 8 ∧
    ∀ line ∈ write_record_line "name" "Manjaro" 8,
      ∃ lbl rest, (lbl = "name" ∨ lbl = "") ∧
        line = padDisplay lbl 8 ++ " | " ++ rest ∧
        (padDisplay lbl 8).length = 8 :=
  label_padding_width ["name", "based_on"] 8 (by decide) "name"
    (by decide) "Manjaro"

/-- C5: for a shape-consistent input the rendered output is exactly the
concatenation, in input order, of one block per stored record, where each
block begins with the record-header formatter applied to the record's
zero-based index followed by a line break (see `recordBlock`), and the
receiver is returned unchanged. -/
theorem render_record_blocks (d : ExpandedDisplay)
    (h : ∀ r ∈ d.records, r.length = d.fields.length) :
    fmt d "" = some (String.join (d.records.enum.map (fun p =>
      recordBlock d (maxFieldWidth (d.fields.map normalizeField))
        p.1 p.2)), d) := by
  have h' : ∀ r ∈ d.records,
      r.length = (d.fields.map normalizeField).length := by
    intro r hr
    rw [List.length_map]
    exact h r hr
  have hb := fmtLoop_blocks d (maxFieldWidth (d.fields.map normalizeField))
      d.records 0 "" h'
  rw [String.empty_append] at hb
  exact hb

/-- C5 witness: the spec's worked example (headers `name`, `based_on`, one
record `Manjaro`/`Arch`). -/
theorem render_record_blocks_witness :
    fmt (ExpandedDisplay.new ["name", "based_on"] [["Manjaro", "Arch"]]) ""
      = some (String.join
          ((ExpandedDisplay.new ["name", "based_on"]
              [["Manjaro", "Arch"]]).records.enum.map (fun p =>
            recordBlock
              (ExpandedDisplay.new ["name", "based_on"] [["Manjaro", "Arch"]])
              (maxFieldWidth
                ((ExpandedDisplay.new ["name", "based_on"]
                    [["Manjaro", "Arch"]]).fields.map normalizeField))
              p.1 p.2)),
          ExpandedDisplay.new ["name", "based_on"] [["Manjaro", "Arch"]]) :=
  render_record_blocks _ (by decide)

/-- C6: a field whose formatted value is the empty string emits exactly one
output line: the label padded to the alignment width, the `" | "`
separator, an empty value portion, and a line break. -/
theorem empty_value_single_line (fld : String) (w : Nat) (buf : String) :
    write_record_line fld "" w = [padDisplay fld w ++ " | " ++ ""] ∧
    writeLines buf (write_record_line fld "" w)
      = buf ++ (padDisplay fld w ++ " | " ++ "") ++ "\n" := by
  exact ⟨rfl, rfl⟩

/-- C7: after enabling single-line mode, the installed value formatter is
the debug-style escape; a value containing a raw newline renders as exactly
one output line for its field, in which the newline appears as the visible
two-character sequence `\n` and no literal line-break character occurs. -/
theorem one_line_mode_single_line (d : ExpandedDisplay) (fld v : String)
    (w : Nat) (hv : '\n' ∈ v.data) :
    (d.format_value_in_one_line).format_value v = escape_debug v ∧
    write_record_line fld (escape_debug v) w
      = [padDisplay fld w ++ " | " ++ escape_debug v] ∧
    (∃ a b, (escape_debug v).data = a ++ '\\' :: 'n' :: b) ∧
    '\n' ∉ (escape_debug v).data := by
  have hinfix := escape_debug_has_escaped_newline v hv
  have hnn := escape_debug_no_newline v
  have hne : escape_debug v ≠ "" := by
    intro h
    rcases hinfix with ⟨a, b, hab⟩
    rw [h] at hab
    exact absurd hab.symm (by simp)
  have hl := linesRust_no_newline (escape_debug v) hne hnn
  refine ⟨rfl, ?_, hinfix, hnn⟩
  rw [write_record_line_cons fld (escape_debug v) w (escape_debug v) [] hl hne]
  rfl

/-- C7 witness: the value `"a\nb"` under single-line mode. -/
theorem one_line_mode_single_line_witness :
    ((ExpandedDisplay.new ["name"] [["a\nb"]]).format_value_in_one_line).format_value "a\nb"
      = escape_debug "a\nb" ∧
    write_record_line "name" (escape_debug "a\nb") 4
      = [padDisplay "name" 4 ++ " | " ++ escape_debug "a\nb"] ∧
    (∃ a b, (escape_debug "a\nb").data = a ++ '\\' :: 'n' :: b) ∧
    '\n' ∉ (escape_debug "a\nb").data :=
  one_line_mode_single_line (ExpandedDisplay.new ["name"] [["a\nb"]])
    "name" "a\nb" 4 (by decide)

/-- C8: rendering is deterministic: a second render of the same (unchanged)
instance appends to the output sink exactly the text the first render
produced. -/
theorem render_deterministic (d : ExpandedDisplay) (out : String)
    (d1 : ExpandedDisplay) (h : fmt d "" = some (out, d1)) :
    fmt d1 out = some (out ++ out, d1) := by
  have hd : d1 = d :=
    fmtLoop_frame d (d.fields.map normalizeField)
      (maxFieldWidth (d.fields.map normalizeField)) d.records 0 "" (out, d1) h
  rw [hd] at h ⊢
  have h' : fmtLoop d (d.fields.map normalizeField)
      (maxFieldWidth (d.fields.map normalizeField)) 0 d.records ""
      = some (out, d) := h
  have hb := fmtLoop_buffer d (d.fields.map normalizeField)
      (maxFieldWidth (d.fields.map normalizeField)) d.records 0 out
  rw [h'] at hb
  simp only [Option.map_some'] at hb
  exact hb

/-- C8 witness: a two-record instance rendered twice in sequence. -/
theorem render_deterministic_witness :
    fmt (ExpandedDisplay.new ["k"] [["x"], ["y"]])
        "-[ RECORD 0 ]-\nk | x\n-[ RECORD 1 ]-\nk | y\n"
      = some ("-[ RECORD 0 ]-\nk | x\n-[ RECORD 1 ]-\nk | y\n"
            ++ "-[ RECORD 0 ]-\nk | x\n-[ RECORD 1 ]-\nk | y\n",
          ExpandedDisplay.new ["k"] [["x"], ["y"]]) :=
  render_deterministic (ExpandedDisplay.new ["k"] [["x"], ["y"]]) _ _ rfl

/-- C9: rendering never mutates the renderer: whatever state the render
loop returns has the same header labels, the same record rows, and the
same two formatter functions as the input state. -/
theorem render_preserves_state (d : ExpandedDisplay) (buf : String)
    (p : String × ExpandedDisplay) (h : fmt d buf = some p) :
    p.2.fields = d.fields ∧ p.2.records = d.records ∧
    p.2.format_record_splitter = d.format_record_splitter ∧
    p.2.format_value = d.format_value := by
  have hd : p.2 = d :=
    fmtLoop_frame d (d.fields.map normalizeField)
      (maxFieldWidth (d.fields.map normalizeField)) d.records 0 buf p h
  rw [hd]
  exact ⟨rfl, rfl, rfl, rfl⟩

/-- C9 witness: a one-record instance; the returned state equals the
constructed one componentwise. -/
theorem render_preserves_state_witness :
    ∃ p, fmt (ExpandedDisplay.new ["h1"] [["v1"]]) "" = some p ∧
      p.2.fields = (ExpandedDisplay.new ["h1"] [["v1"]]).fields ∧
      p.2.records = (ExpandedDisplay.new ["h1"] [["v1"]]).records ∧
      p.2.format_record_splitter
        = (ExpandedDisplay.new ["h1"] [["v1"]]).format_record_splitter ∧
      p.2.format_value = (ExpandedDisplay.new ["h1"] [["v1"]]).format_value :=
  ⟨("-[ RECORD 0 ]-\nh1 | v1\n", ExpandedDisplay.new ["h1"] [["v1"]]), rfl,
    render_preserves_state _ "" _ rfl⟩

/-- C10: a renderer whose record list is empty renders to the empty string,
whatever the header set and the configured formatters; the width
computation over an empty label list defaults to zero. -/
theorem empty_records_render_empty (hs : List String) (spl : Nat → String)
    (fv : String → String) :
    fmt ⟨spl, fv, hs, []⟩ "" = some ("", ⟨spl, fv, hs, []⟩) ∧
    maxFieldWidth ([] : List String) = 0 ∧
    render ⟨spl, fv, hs, []⟩ = some "" := by
  exact ⟨rfl, rfl, rfl⟩

end ExpDisplay
